import Mathlib

/-!
Verification of the PrintReady raster-to-vector pipeline
(`backend/app/pipeline/*.py`, `backend/app/vectorizer/*.py`).

Shallow embedding conventions:
* 8-bit colour channels are embedded as integers (`Int`), pixel grids as
  total functions from integer coordinates together with explicit
  width/height bounds (out-of-bounds reads never occur in the theorems).
* Real-valued Python arithmetic (float) is embedded as exact rational
  arithmetic (`Rat`); comparisons and algebraic identities are stated in
  that exact semantics.
* Calls into external binaries or C libraries (OpenCV contour extraction,
  PIL median-cut palette selection, potrace/vtracer) are either
  parameters of the embedded function (data that is fixed for a fixed
  input image) or are modelled from the specification, as flagged in the
  corresponding doc comments.
-/

set_option maxRecDepth 4000

/-- An 8-bit RGB colour sample, embedded with integer channels
(`logo_safe.py` and `logo_sign_mode.py` work on PIL RGB pixels). -/
structure RGB where
  r : Int
  g : Int
  b : Int
deriving DecidableEq

/-- Squared Euclidean RGB distance, as in `logo_safe._color_dist` /
`logo_sign_mode._color_dist_sq`:
`(a[0]-b[0])**2 + (a[1]-b[1])**2 + (a[2]-b[2])**2`. -/
def colorDistSq (a b : RGB) : Int :=
  (a.r - b.r) ^ 2 + (a.g - b.g) ^ 2 + (a.b - b.b) ^ 2

/-- A raster image: width, height, and the pixel grid.  The grid is a
total function; the pipeline only ever reads coordinates inside
`[0, w) x [0, h)`. -/
structure Img where
  w : Nat
  h : Nat
  pix : Int → Int → RGB

/-- Coordinate-in-bounds test for an image. -/
def inBounds (im : Img) (x y : Int) : Bool :=
  decide (0 ≤ x) && decide (x < (im.w : Int)) && decide (0 ≤ y) && decide (y < (im.h : Int))

/-- The offsets `-r .. r` of a `(2r+1)`-wide PIL `MaxFilter` window. -/
def filterOffsets (r : Nat) : List Int :=
  (List.range (2 * r + 1)).map (fun (i : Nat) => (i : Int) - (r : Int))

/-- All `(dx, dy)` offsets of a square `(2r+1) x (2r+1)` filter window. -/
def filterWindow (r : Nat) : List (Int × Int) :=
  (filterOffsets r).flatMap (fun dx => (filterOffsets r).map (fun dy => (dx, dy)))

/-- The "near background" mask built by both dehalo passes: pixel `(x,y)`
is masked iff its squared RGB distance to the background estimate is at
most the threshold (`_dehalo_to_white` line 107, `_hard_dehalo_to_bg`
line 106). -/
def nearBgMask (im : Img) (bg : RGB) (threshSq : Int) (x y : Int) : Bool :=
  decide (colorDistSq (im.pix x y) bg ≤ threshSq)

/-- The mask after PIL `MaxFilter(2r+1)` dilation.  PIL expands the
border with zeroes before rank-filtering, so out-of-bounds positions
never contribute to the maximum: a pixel is in the grown mask iff some
in-bounds pixel within the window is in the raw mask. -/
def grownMask (im : Img) (bg : RGB) (threshSq : Int) (r : Nat) (x y : Int) : Bool :=
  (filterWindow r).any (fun d =>
    inBounds im (x + d.1) (y + d.2) && nearBgMask im bg threshSq (x + d.1) (y + d.2))

/-- `logo_sign_mode._hard_dehalo_to_bg` (lines 78-117): mask all pixels
within `threshSq` of the background estimate, dilate the mask with
`MaxFilter(5)` (radius 2), then paste the *exact* background colour
wherever the mask is set. -/
def hardDehaloToBg (im : Img) (bg : RGB) (threshSq : Int) : Img :=
  { im with pix := fun x y => if grownMask im bg threshSq 2 x y then bg else im.pix x y }

/-- `logo_safe._dehalo_to_white` (lines 90-119): mask all pixels within
`distThresh^2` of the background estimate, dilate the mask with
`MaxFilter(2*growPx+1)` (radius `growPx`), then paste *pure white*
(not the background estimate) wherever the mask is set. -/
def dehaloToWhite (im : Img) (bg : RGB) (distThresh : Int) (growPx : Nat) : Img :=
  { im with pix := fun x y =>
      if grownMask im bg (distThresh * distThresh) growPx x y then ⟨255, 255, 255⟩
      else im.pix x y }

/-- The all-black image used as a concrete input (a 5x5 black canvas;
`logo_safe._sample_bg_color` samples its near-corner points, all black,
so the background estimate is `(0,0,0)`). -/
def blackImg : Img := ⟨5, 5, fun _ _ => ⟨0, 0, 0⟩⟩

theorem colorDistSq_self (a : RGB) : colorDistSq a a = 0 := by
  simp [colorDistSq]

theorem colorDistSq_nonneg (a b : RGB) : 0 ≤ colorDistSq a b := by
  have h1 : (0:Int) ≤ (a.r - b.r) ^ 2 := sq_nonneg _
  have h2 : (0:Int) ≤ (a.g - b.g) ^ 2 := sq_nonneg _
  have h3 : (0:Int) ≤ (a.b - b.b) ^ 2 := sq_nonneg _
  unfold colorDistSq
  linarith

theorem colorDistSq_pos_of_ne (a b : RGB) (h : a ≠ b) : 0 < colorDistSq a b := by
  rcases lt_or_eq_of_le (colorDistSq_nonneg a b) with hlt | heq
  · exact hlt
  · exfalso
    have h1 : (0:Int) ≤ (a.r - b.r) ^ 2 := sq_nonneg _
    have h2 : (0:Int) ≤ (a.g - b.g) ^ 2 := sq_nonneg _
    have h3 : (0:Int) ≤ (a.b - b.b) ^ 2 := sq_nonneg _
    have hsum : (a.r - b.r) ^ 2 + (a.g - b.g) ^ 2 + (a.b - b.b) ^ 2 = 0 := by
      have := heq.symm
      simpa [colorDistSq] using this
    have hr : (a.r - b.r) ^ 2 = 0 := by linarith
    have hg : (a.g - b.g) ^ 2 = 0 := by linarith
    have hb : (a.b - b.b) ^ 2 = 0 := by linarith
    have hr0 : a.r = b.r := by have := sq_eq_zero_iff.mp hr; linarith
    have hg0 : a.g = b.g := by have := sq_eq_zero_iff.mp hg; linarith
    have hb0 : a.b = b.b := by have := sq_eq_zero_iff.mp hb; linarith
    exact h (by cases a; cases b; simp_all)

theorem mem_filterOffsets_zero (r : Nat) : (0 : Int) ∈ filterOffsets r := by
  simp only [filterOffsets, List.mem_map, List.mem_range]
  exact ⟨r, by omega, by ring⟩

theorem grownMask_of_center (im : Img) (bg : RGB) (t : Int) (r : Nat) (x y : Int)
    (hin : inBounds im x y = true)
    (hnear : colorDistSq (im.pix x y) bg ≤ t) :
    grownMask im bg t r x y = true := by
  unfold grownMask
  refine List.any_eq_true.mpr ⟨(0, 0), ?_, ?_⟩
  · unfold filterWindow
    refine List.mem_flatMap.mpr ⟨0, mem_filterOffsets_zero r, ?_⟩
    exact List.mem_map.mpr ⟨0, mem_filterOffsets_zero r, rfl⟩
  · simp only [add_zero]
    rw [hin]
    simp [nearBgMask, hnear]

/-- C1 (amended): in the sign-mode halo suppressor
`_hard_dehalo_to_bg`, every in-bounds pixel within the squared-distance
threshold of the background estimate — and more generally every pixel of
the dilated mask — is set to exactly the background colour, so that all
background-classified pixels end with colour-distance `0 < threshSq` to
the background.  (The logo-safe variant `_dehalo_to_white` instead
paints pure white, so for it this holds only when the background
estimate is white; see the counterexample.) -/
theorem hardDehaloToBg_paints_bg (im : Img) (bg : RGB) (t : Int) (x y : Int) :
    (inBounds im x y = true → colorDistSq (im.pix x y) bg ≤ t →
      (hardDehaloToBg im bg t).pix x y = bg)
    ∧ (grownMask im bg t 2 x y = true → (hardDehaloToBg im bg t).pix x y = bg)
    ∧ (0 < t → grownMask im bg t 2 x y = true →
        colorDistSq ((hardDehaloToBg im bg t).pix x y) bg < t) := by
  refine ⟨?_, ?_, ?_⟩
  · intro hin hnear
    have hm := grownMask_of_center im bg t 2 x y hin hnear
    simp [hardDehaloToBg, hm]
  · intro hm
    simp [hardDehaloToBg, hm]
  · intro ht hm
    simp [hardDehaloToBg, hm, colorDistSq_self, ht]

/-- Witness for `hardDehaloToBg_paints_bg` at the 5x5 black canvas with
the sign-mode defaults (`bg` the sampled black, `thresh_sq = 16*16`). -/
theorem hardDehaloToBg_paints_bg_witness :
    (hardDehaloToBg blackImg ⟨0, 0, 0⟩ 256).pix 2 2 = ⟨0, 0, 0⟩
    ∧ colorDistSq ((hardDehaloToBg blackImg ⟨0, 0, 0⟩ 256).pix 2 2) ⟨0, 0, 0⟩ < 256 := by
  have h := hardDehaloToBg_paints_bg blackImg ⟨0, 0, 0⟩ 256 2 2
  exact ⟨h.1 (by decide) (by decide), h.2.2 (by decide)
    (grownMask_of_center blackImg ⟨0, 0, 0⟩ 256 2 2 2 (by decide) (by decide))⟩

/-- C1 counterexample: `_dehalo_to_white` with its shipped constants
(`DEHALO_RGB_DIST = 12`, `DEHALO_GROW_PX = 3`) on an all-black canvas
whose sampled background estimate is black.  The centre pixel is
background-classified (squared distance `0 ≤ 144`) yet is painted pure
white, not the background colour, and its resulting squared distance to
the background is `195075`, far above the threshold. -/
theorem dehaloToWhite_not_bg :
    colorDistSq (blackImg.pix 2 2) ⟨0, 0, 0⟩ ≤ 144
    ∧ (dehaloToWhite blackImg ⟨0, 0, 0⟩ 12 3).pix 2 2 ≠ ⟨0, 0, 0⟩
    ∧ colorDistSq ((dehaloToWhite blackImg ⟨0, 0, 0⟩ 12 3).pix 2 2) ⟨0, 0, 0⟩ = 195075
    ∧ ¬ (195075 : Int) ≤ 144 := by
  refine ⟨by decide, ?_, ?_, by decide⟩
  · have : (dehaloToWhite blackImg ⟨0, 0, 0⟩ 12 3).pix 2 2 = ⟨255, 255, 255⟩ := by decide
    rw [this]; decide
  · have : (dehaloToWhite blackImg ⟨0, 0, 0⟩ 12 3).pix 2 2 = ⟨255, 255, 255⟩ := by decide
    rw [this]; decide

/-- A 2-D point with exact rational coordinates (Python floats are
embedded as exact rationals). -/
abbrev Pt : Type := Rat × Rat

/-- `simplify.rdp.perp_dist` (lines 10-18), embedded with *squared*
distances so the value stays rational (`hypot` returns the square root;
squaring is strictly monotone on nonnegative reals, and the claims
proved below are independent of that monotone reparametrisation):
distance from `p` to the segment `a b`, with the parameter `t` clamped
to `[0, 1]` exactly as in the source. -/
def perpDistSq (p a b : Pt) : Rat :=
  let dx := b.1 - a.1
  let dy := b.2 - a.2
  if dx = 0 ∧ dy = 0 then (p.1 - a.1) ^ 2 + (p.2 - a.2) ^ 2
  else
    let t := ((p.1 - a.1) * dx + (p.2 - a.2) * dy) / (dx * dx + dy * dy)
    let tc := max 0 (min 1 t)
    let cx := a.1 + tc * dx
    let cy := a.2 + tc * dy
    (p.1 - cx) ^ 2 + (p.2 - cy) ^ 2

/-- The maximum-perpendicular-distance scan of `rdp` (lines 20-24):
fold over the interior indices `1 .. len-2`, keeping `(max_d, idx)`,
starting from `(0, 0)` and updating only on strict improvement. -/
def maxPerp (points : List Pt) : Rat × Nat :=
  (List.range' 1 (points.length - 2)).foldl
    (fun s i =>
      if s.1 < perpDistSq (points.getD i default) (points.headD default) (points.getLastD default)
      then (perpDistSq (points.getD i default) (points.headD default) (points.getLastD default), i)
      else s)
    (0, 0)

theorem argmax_foldl_cases (f : Nat → Rat) :
    ∀ (l : List Nat) (s : Rat × Nat),
      (l.foldl (fun a i => if a.1 < f i then (f i, i) else a) s) = s
      ∨ ((l.foldl (fun a i => if a.1 < f i then (f i, i) else a) s)).2 ∈ l := by
  intro l
  induction l with
  | nil => intro s; exact Or.inl rfl
  | cons x t ih =>
    intro s
    simp only [List.foldl_cons]
    rcases ih (if s.1 < f x then (f x, x) else s) with h | h
    · rw [h]
      by_cases hx : s.1 < f x
      · right; simp [hx]
      · left; simp [hx]
    · right; exact List.mem_cons_of_mem _ h

theorem maxPerp_idx_bounds (points : List Pt) :
    (maxPerp points).2 = 0
    ∨ (1 ≤ (maxPerp points).2 ∧ (maxPerp points).2 + 2 ≤ points.length) := by
  unfold maxPerp
  rcases argmax_foldl_cases
      (fun i => perpDistSq (points.getD i default) (points.headD default) (points.getLastD default))
      (List.range' 1 (points.length - 2)) (0, 0) with h | h
  · left; rw [h]
  · right
    rcases List.mem_range'.mp h with ⟨j, hj, hje⟩
    omega

/-- `simplify.rdp` (lines 4-30), Ramer-Douglas-Peucker: below 3 points
return the input; otherwise find the interior point of maximum
(squared) perpendicular distance from the end chord; if it exceeds
`epsilon`, recurse on both halves and join with the split point shared
(`left[:-1] + right`), else collapse to the two endpoints.  The guard
`1 ≤ idx` is redundant whenever `0 ≤ epsilon` (an index is recorded
only together with a strictly positive distance), and makes the
function total: the Python source diverges when called with a negative
epsilon on a segment whose interior distances are all zero, which the
claims never do. -/
def rdp (points : List Pt) (epsilon : Rat) : List Pt :=
  if h3 : points.length < 3 then points
  else if h : 1 ≤ (maxPerp points).2 ∧ epsilon < (maxPerp points).1 then
    (rdp (points.take ((maxPerp points).2 + 1)) epsilon).dropLast
      ++ rdp (points.drop ((maxPerp points).2)) epsilon
  else [points.headD default, points.getLastD default]
termination_by points.length
decreasing_by
  · rcases maxPerp_idx_bounds points with hb | hb
    · omega
    · simp only [List.length_take]
      omega
  · rcases maxPerp_idx_bounds points with hb | hb
    · omega
    · simp only [List.length_drop]
      omega

theorem sublist_of_sublist_singleton {α : Type} {l : List α} {c : α}
    (h : l.Sublist [c]) : l = [] ∨ l = [c] := by
  cases l with
  | nil => exact Or.inl rfl
  | cons a t =>
    cases t with
    | nil =>
      right
      have : a ∈ [c] := List.singleton_sublist.mp h
      simp at this
      rw [this]
    | cons b u =>
      exfalso
      have := h.length_le
      simp at this

theorem dropLast_sublist_of_concat {α : Type} {l xs : List α} {c : α}
    (h : l.Sublist (xs ++ [c])) : l.dropLast.Sublist xs := by
  rcases List.sublist_append_iff.mp h with ⟨l₁, l₂, rfl, h₁, h₂⟩
  rcases sublist_of_sublist_singleton h₂ with rfl | rfl
  · simpa using (List.dropLast_sublist l₁).trans h₁
  · simpa [List.dropLast_concat] using h₁

theorem head?_take_succ {α : Type} (l : List α) (n : Nat) :
    (l.take (n + 1)).head? = l.head? := by
  cases l <;> simp

theorem getLast?_drop_of_lt {α : Type} :
    ∀ (l : List α) (n : Nat), n < l.length → (l.drop n).getLast? = l.getLast? := by
  intro l
  induction l with
  | nil => intro n h; simp at h
  | cons a t ih =>
    intro n h
    cases n with
    | zero => simp
    | succ m =>
      simp only [List.drop_succ_cons]
      rw [ih m (by simpa using h)]
      cases t with
      | nil => simp at h
      | cons b u => simp

theorem head?_dropLast_of_two {α : Type} (l : List α) (h : 2 ≤ l.length) :
    l.dropLast.head? = l.head? := by
  match l, h with
  | a :: b :: t, _ => simp

theorem rdp_aux :
    ∀ (n : Nat) (points : List Pt) (eps : Rat),
      points.length ≤ n → 2 ≤ points.length →
      (rdp points eps).Sublist points ∧ 2 ≤ (rdp points eps).length
      ∧ (rdp points eps).head? = points.head?
      ∧ (rdp points eps).getLast? = points.getLast? := by
  intro n
  induction n with
  | zero => intro points eps hn h2; omega
  | succ n ih =>
    intro points eps hn h2
    by_cases h3 : points.length < 3
    · rw [rdp, dif_pos h3]
      exact ⟨List.Sublist.refl _, h2, rfl, rfl⟩
    · by_cases hg : 1 ≤ (maxPerp points).2 ∧ eps < (maxPerp points).1
      · rw [rdp, dif_neg h3, dif_pos hg]
        obtain ⟨hg1, _⟩ := hg
        have hb : 1 ≤ (maxPerp points).2 ∧ (maxPerp points).2 + 2 ≤ points.length := by
          rcases maxPerp_idx_bounds points with hb | hb
          · omega
          · exact hb
        obtain ⟨-, hi2⟩ := hb
        have hlenL : (points.take ((maxPerp points).2 + 1)).length = (maxPerp points).2 + 1 := by
          rw [List.length_take]; omega
        have hlenR : (points.drop ((maxPerp points).2)).length
            = points.length - (maxPerp points).2 := by
          rw [List.length_drop]
        obtain ⟨sL, lL, hdL, glL⟩ :=
          ih (points.take ((maxPerp points).2 + 1)) eps (by omega) (by omega)
        obtain ⟨sR, lR, hdR, glR⟩ :=
          ih (points.drop ((maxPerp points).2)) eps (by omega) (by omega)
        have hLne : (rdp (points.take ((maxPerp points).2 + 1)) eps).dropLast ≠ [] := by
          have : 1 ≤ (rdp (points.take ((maxPerp points).2 + 1)) eps).dropLast.length := by
            rw [List.length_dropLast]; omega
          exact List.ne_nil_of_length_pos (by omega)
        have hRne : rdp (points.drop ((maxPerp points).2)) eps ≠ [] :=
          List.ne_nil_of_length_pos (by omega)
        refine ⟨?_, ?_, ?_, ?_⟩
        · obtain ⟨x, hx⟩ : ∃ x, points[(maxPerp points).2]? = some x :=
            ⟨_, List.getElem?_eq_getElem (by omega)⟩
          have hsplit : points.take ((maxPerp points).2 + 1)
              = points.take ((maxPerp points).2) ++ [x] := by
            rw [List.take_succ, hx]; rfl
          have sL2 : (rdp (points.take ((maxPerp points).2 + 1)) eps).Sublist
              (points.take ((maxPerp points).2) ++ [x]) := by
            rw [← hsplit]; exact sL
          have hL2 : (rdp (points.take ((maxPerp points).2 + 1)) eps).dropLast.Sublist
              (points.take ((maxPerp points).2)) :=
            dropLast_sublist_of_concat sL2
          have := List.Sublist.append hL2 sR
          simpa [List.take_append_drop] using this
        · simp only [List.length_append, List.length_dropLast]
          omega
        · rw [List.head?_append_of_ne_nil _ hLne,
              head?_dropLast_of_two _ (by omega), hdL, head?_take_succ]
        · rw [List.getLast?_append_of_ne_nil _ hRne, glR,
              getLast?_drop_of_lt _ _ (by omega)]
      · rw [rdp, dif_neg h3, dif_neg hg]
        obtain ⟨p, ps, rfl⟩ : ∃ p ps, points = p :: ps := by
          cases points with
          | nil => simp at h2
          | cons p ps => exact ⟨p, ps, rfl⟩
        obtain ⟨q, qs, rfl⟩ : ∃ q qs, ps = q :: qs := by
          cases ps with
          | nil => simp at h3
          | cons q qs => exact ⟨q, qs, rfl⟩
        have hlast : (p :: q :: qs).getLast? = some ((q :: qs).getLast (by simp)) := by
          rw [List.getLast?_eq_getLast _ (by simp), List.getLast_cons (by simp)]
        refine ⟨?_, by simp, by simp, ?_⟩
        · simp only [List.headD_eq_head?_getD, List.getLastD_eq_getLast?]
          rw [hlast]
          simp only [List.head?_cons, Option.getD_some]
          exact List.Sublist.cons₂ p
            (List.singleton_sublist.mpr (List.getLast_mem _))
        · simp only [List.getLastD_eq_getLast?, List.getLast?_cons_cons]
          rw [show (q :: qs).getLast? = some ((q :: qs).getLast (by simp)) from
            List.getLast?_eq_getLast _ (by simp)]
          simp

/-- C10: for every polyline with at least 2 points and every
`epsilon ≥ 0`, `rdp` returns a subsequence of its input that still has
at least 2 points and whose first and last elements are the input's
first and last points. -/
theorem rdp_invariants (points : List Pt) (epsilon : Rat)
    (hlen : 2 ≤ points.length) (heps : 0 ≤ epsilon) :
    (rdp points epsilon).Sublist points
    ∧ 2 ≤ (rdp points epsilon).length
    ∧ (rdp points epsilon).head? = points.head?
    ∧ (rdp points epsilon).getLast? = points.getLast? :=
  rdp_aux points.length points epsilon le_rfl hlen

/-- Witness for `rdp_invariants` on a concrete 3-point polyline with
`epsilon = 1/2`. -/
theorem rdp_invariants_witness :
    (rdp [((0:Rat), (0:Rat)), (1, 1), (2, 0)] (1/2)).Sublist
        [((0:Rat), (0:Rat)), (1, 1), (2, 0)]
    ∧ 2 ≤ (rdp [((0:Rat), (0:Rat)), (1, 1), (2, 0)] (1/2)).length
    ∧ (rdp [((0:Rat), (0:Rat)), (1, 1), (2, 0)] (1/2)).head?
        = ([((0:Rat), (0:Rat)), (1, 1), (2, 0)] : List Pt).head?
    ∧ (rdp [((0:Rat), (0:Rat)), (1, 1), (2, 0)] (1/2)).getLast?
        = ([((0:Rat), (0:Rat)), (1, 1), (2, 0)] : List Pt).getLast? :=
  rdp_invariants [((0:Rat), (0:Rat)), (1, 1), (2, 0)] (1/2) (by decide) (by norm_num)

/-- A cubic Bezier segment `[p0, c1, c2, p3]`. -/
abbrev Bez : Type := Pt × Pt × Pt × Pt

/-- One chord segment of the fitter (`fit.bezier_from_polyline` lines
30-35 / `contours.poly_to_cubics` lines 61-66): `t = p3 - p0`,
`p1 = p0 + t/3`, `p2 = p0 + 2*t/3`. -/
def bezSeg (p0 p3 : Pt) : Bez :=
  (p0,
   (p0.1 + (p3.1 - p0.1) / 3, p0.2 + (p3.2 - p0.2) / 3),
   (p0.1 + 2 * (p3.1 - p0.1) / 3, p0.2 + 2 * (p3.2 - p0.2) / 3),
   p3)

/-- `fit.bezier_from_polyline` (lines 24-36): below 2 points return the
empty list, otherwise one cubic per consecutive vertex pair
`(points[i], points[i+1])`, `i` in `0 .. len-2`. -/
def bezierFromPolyline (points : List Pt) : List Bez :=
  if points.length < 2 then []
  else (List.range (points.length - 1)).map
    (fun i => bezSeg (points.getD i default) (points.getD (i + 1) default))

/-- `contours.poly_to_cubics` (lines 49-67): below 2 points return the
empty list; otherwise, if the polyline is closed (`pts[0] == pts[-1]`)
iterate `i` over `0 .. n-1` (wrapping indices mod `n`), else over
`0 .. n-2`, emitting one chord cubic per step. -/
def polyToCubics (pts : List Pt) : List Bez :=
  if pts.length < 2 then []
  else
    (if pts.headD default = pts.getLastD default
     then List.range pts.length
     else List.range (pts.length - 1)).map
      (fun i => bezSeg (pts.getD (i % pts.length) default)
                       (pts.getD ((i + 1) % pts.length) default))

/-- C8 (amended): `bezier_from_polyline` *always* — closed polylines
included — emits exactly one cubic per consecutive vertex pair
(`len - 1` cubics), with endpoints on the vertices and control points
exactly at one third and two thirds of the straight chord, and the
empty list below 2 points; `poly_to_cubics` coincides with it for
polylines whose first and last points differ (and below 2 points),
while for *closed* polylines of at least 2 points it additionally
emits the wrap-around cubic `(pts[n-1], pts[0])`, giving `n` cubics
instead of `n - 1` (see the counterexample). -/
theorem bezier_one_per_chord (pts : List Pt) :
    (bezierFromPolyline pts).length = pts.length - 1
    ∧ (∀ i p q, pts[i]? = some p → pts[i + 1]? = some q →
        (bezierFromPolyline pts)[i]? = some
          (p,
           (p.1 + (q.1 - p.1) / 3, p.2 + (q.2 - p.2) / 3),
           (p.1 + 2 * (q.1 - p.1) / 3, p.2 + 2 * (q.2 - p.2) / 3),
           q))
    ∧ (pts.length < 2 → bezierFromPolyline pts = [] ∧ polyToCubics pts = [])
    ∧ ((pts.length < 2 ∨ pts.headD default ≠ pts.getLastD default) →
        polyToCubics pts = bezierFromPolyline pts)
    ∧ (2 ≤ pts.length → pts.headD default = pts.getLastD default →
        (polyToCubics pts).length = pts.length) := by
  refine ⟨?_, ?_, ?_, ?_, ?_⟩
  · unfold bezierFromPolyline
    by_cases h2 : pts.length < 2
    · rw [if_pos h2, List.length_nil]; omega
    · rw [if_neg h2, List.length_map, List.length_range]
  · intro i p q hp hq
    have hi1 : i + 1 < pts.length := by
      have := List.getElem?_eq_some_iff.mp hq
      exact this.1
    have h2 : ¬ pts.length < 2 := by omega
    unfold bezierFromPolyline
    rw [if_neg h2]
    rw [List.getElem?_map, List.getElem?_range (by omega)]
    have hgp : pts.getD i default = p := by
      rw [List.getD_eq_getElem?_getD, hp]; rfl
    have hgq : pts.getD (i + 1) default = q := by
      rw [List.getD_eq_getElem?_getD, hq]; rfl
    simp only [Option.map_some']
    rw [hgp, hgq]
    rfl
  · intro h2
    constructor
    · unfold bezierFromPolyline; rw [if_pos h2]
    · unfold polyToCubics; rw [if_pos h2]
  · intro hopen
    unfold polyToCubics bezierFromPolyline
    by_cases h2 : pts.length < 2
    · rw [if_pos h2, if_pos h2]
    · rw [if_neg h2, if_neg h2]
      have hcl : ¬ pts.headD default = pts.getLastD default := by
        rcases hopen with h | h
        · omega
        · exact h
      rw [if_neg hcl]
      apply List.map_congr_left
      intro i hi
      have hilt : i < pts.length - 1 := List.mem_range.mp hi
      rw [Nat.mod_eq_of_lt (by omega), Nat.mod_eq_of_lt (by omega)]
  · intro h2 hcl
    unfold polyToCubics
    rw [if_neg (by omega), if_pos hcl, List.length_map, List.length_range]

/-- Witness for `bezier_one_per_chord`, discharging each of its inner
hypotheses at a concrete input: the open 2-point polyline
`[(0,0), (3,3)]` (one cubic at the exact chord thirds, coinciding with
`poly_to_cubics`), the 1-point polyline `[(0,0)]` (both fitters
empty), and the closed polyline `[(0,0), (1,0), (0,0)]` (wrap-around:
3 cubics). -/
theorem bezier_one_per_chord_witness :
    (bezierFromPolyline [((0:Rat), (0:Rat)), (3, 3)]).length = 1
    ∧ (bezierFromPolyline [((0:Rat), (0:Rat)), (3, 3)])[0]? = some
        (((0:Rat), (0:Rat)),
         ((0:Rat) + ((3:Rat) - 0) / 3, (0:Rat) + ((3:Rat) - 0) / 3),
         ((0:Rat) + 2 * ((3:Rat) - 0) / 3, (0:Rat) + 2 * ((3:Rat) - 0) / 3),
         ((3:Rat), (3:Rat)))
    ∧ polyToCubics [((0:Rat), (0:Rat)), (3, 3)]
        = bezierFromPolyline [((0:Rat), (0:Rat)), (3, 3)]
    ∧ bezierFromPolyline [((0:Rat), (0:Rat))] = []
    ∧ polyToCubics [((0:Rat), (0:Rat))] = []
    ∧ (polyToCubics [((0:Rat), (0:Rat)), (1, 0), (0, 0)]).length = 3 := by
  have h2 := bezier_one_per_chord [((0:Rat), (0:Rat)), (3, 3)]
  have h1 := bezier_one_per_chord [((0:Rat), (0:Rat))]
  have h3 := bezier_one_per_chord [((0:Rat), (0:Rat)), (1, 0), (0, 0)]
  exact ⟨h2.1, h2.2.1 0 ((0:Rat), (0:Rat)) ((3:Rat), (3:Rat)) rfl rfl,
         h2.2.2.2.1 (Or.inr (by decide)),
         (h1.2.2.1 (by decide)).1, (h1.2.2.1 (by decide)).2,
         h3.2.2.2.2 (by decide) (by decide)⟩

/-- C8 counterexample: on the *closed* 3-point polyline
`[(0,0), (1,0), (0,0)]` (first = last), `poly_to_cubics` emits 3 cubics
— one per consecutive pair plus the wrap-around pair — not the
`len - 1 = 2` that "exactly one cubic per consecutive vertex pair"
demands. -/
theorem polyToCubics_closed_counterexample :
    (polyToCubics [((0:Rat), (0:Rat)), (1, 0), (0, 0)]).length = 3
    ∧ ([((0:Rat), (0:Rat)), (1, 0), (0, 0)] : List Pt).length - 1 = 2
    ∧ (3 : Nat) ≠ 2 := by
  refine ⟨?_, by decide, by decide⟩
  decide

/-- The epsilon table of `simplify.simplify_paths` (line 33):
`{"low": 0.5, "medium": 1.0, "high": 2.0}.get(smoothness, 1.0)`. -/
def smoothnessEps (s : String) : Rat :=
  if s = "low" then 1/2 else if s = "medium" then 1 else if s = "high" then 2 else 1

/-- `simplify.simplify_paths` (lines 32-39): run `rdp` on every path
with the smoothness epsilon and keep *every* result — no path is
dropped, whatever its simplified length.  (Colours are carried along
unchanged in the source and are omitted here.) -/
def simplifyPaths (paths : List (List Pt)) (smoothness : String) : List (List Pt) :=
  paths.map (fun p => rdp p (smoothnessEps smoothness))

/-- `fit.fit_primitives_and_beziers` in its default configuration
(`primitive_snap` false, or any path of fewer than 4 points, lines
60-62): each path is converted by `bezier_from_polyline`, none dropped. -/
def fitBeziersNoSnap (paths : List (List Pt)) : List (List Bez) :=
  paths.map bezierFromPolyline

/-- `svg.paths_to_svg` (lines 17-37): the emitted SVG contains one
`<path>` element per entry of the input list — the loop appends an
element unconditionally, with no minimum-vertex check. -/
def pathsToSvgPathCount (paths : List (List Bez)) : Nat := paths.length

/-- A raw contour of 3 collinear points: `rdp` collapses it to its 2
endpoints. -/
def collinearPath : List Pt := [(0, 0), (5, 0), (10, 0)]

theorem perpDistSq_collinear : perpDistSq (5, 0) (0, 0) (10, 0) = 0 := by
  simp only [perpDistSq]
  norm_num

theorem maxPerp_collinear : maxPerp collinearPath = (0, 0) := by
  have hd : perpDistSq (collinearPath.getD 1 default) (collinearPath.headD default)
      (collinearPath.getLastD default) = 0 := perpDistSq_collinear
  unfold maxPerp
  rw [show collinearPath.length - 2 = 1 from rfl, show List.range' 1 1 = [1] from rfl]
  rw [List.foldl_cons, List.foldl_nil]
  rw [if_neg (by rw [hd]; norm_num)]

theorem rdp_collinearPath : rdp collinearPath 1 = [(0, 0), (10, 0)] := by
  rw [rdp, dif_neg (by decide), dif_neg (by rw [maxPerp_collinear]; norm_num)]
  rfl

/-- C4: a contour that boundary simplification reduces to 2 points is
*not* dropped: `simplify_paths` keeps it, the fitter converts it to one
cubic, and `paths_to_svg` still emits one `<path>` element for it
(instead of the 0 that dropping degenerate polygons would require). -/
theorem degenerate_polygon_rendered :
    simplifyPaths [collinearPath] "medium" = [[(0, 0), (10, 0)]]
    ∧ (simplifyPaths [collinearPath] "medium").map List.length = [2]
    ∧ pathsToSvgPathCount (fitBeziersNoSnap (simplifyPaths [collinearPath] "medium")) = 1
    ∧ pathsToSvgPathCount (fitBeziersNoSnap (simplifyPaths [collinearPath] "medium")) ≠ 0 := by
  have hs : simplifyPaths [collinearPath] "medium" = [[(0, 0), (10, 0)]] := by
    unfold simplifyPaths
    rw [List.map_cons, List.map_nil]
    rw [show smoothnessEps "medium" = 1 from by decide]
    rw [rdp_collinearPath]
  refine ⟨hs, ?_, ?_, ?_⟩
  · rw [hs]; rfl
  · rw [hs]; rfl
  · rw [hs]; decide

/-- The mutable loop state of `pipeline._otsu_threshold` (lines 16-19):
`wB`, `sumB`, `var_max` (Python floats, embedded as exact rationals),
the running `threshold` (initial 127), and whether the loop has hit its
`break`. -/
structure OtsuState where
  wB : Rat
  sumB : Rat
  varMax : Rat
  thr : Nat
  broken : Bool
deriving DecidableEq

/-- One iteration of the `_otsu_threshold` loop (lines 21-34): add
`hist[t]` to `wB`; `continue` while `wB == 0`; `break` when `wF == 0`;
otherwise accumulate `sumB`, form the class means and the between-class
variance, and update `(var_max, threshold)` on strict improvement.
After a `break` the state is frozen. -/
def otsuStepFn (hist : Nat → Nat) (total sumTotal : Rat) (s : OtsuState) (t : Nat) : OtsuState :=
  if s.broken then s
  else if s.wB + (hist t : Rat) = 0 then { s with wB := s.wB + (hist t : Rat) }
  else if total - (s.wB + (hist t : Rat)) = 0 then
    { s with wB := s.wB + (hist t : Rat), broken := true }
  else
    if s.varMax <
        (s.wB + (hist t : Rat)) * (total - (s.wB + (hist t : Rat)))
          * ((s.sumB + (t : Rat) * (hist t : Rat)) / (s.wB + (hist t : Rat))
              - (sumTotal - (s.sumB + (t : Rat) * (hist t : Rat)))
                / (total - (s.wB + (hist t : Rat))))
          * ((s.sumB + (t : Rat) * (hist t : Rat)) / (s.wB + (hist t : Rat))
              - (sumTotal - (s.sumB + (t : Rat) * (hist t : Rat)))
                / (total - (s.wB + (hist t : Rat))))
    then
      ⟨s.wB + (hist t : Rat), s.sumB + (t : Rat) * (hist t : Rat),
       (s.wB + (hist t : Rat)) * (total - (s.wB + (hist t : Rat)))
          * ((s.sumB + (t : Rat) * (hist t : Rat)) / (s.wB + (hist t : Rat))
              - (sumTotal - (s.sumB + (t : Rat) * (hist t : Rat)))
                / (total - (s.wB + (hist t : Rat))))
          * ((s.sumB + (t : Rat) * (hist t : Rat)) / (s.wB + (hist t : Rat))
              - (sumTotal - (s.sumB + (t : Rat) * (hist t : Rat)))
                / (total - (s.wB + (hist t : Rat)))),
       t, false⟩
    else ⟨s.wB + (hist t : Rat), s.sumB + (t : Rat) * (hist t : Rat), s.varMax, s.thr, false⟩

/-- `pipeline._otsu_threshold` (lines 10-36): histogram of the
grayscale pixel list, loop state threaded over `t = 0 .. 255`,
returning the selected threshold (127 if never updated). -/
def otsuThreshold (pixels : List Nat) : Nat :=
  ((List.range 256).foldl
    (otsuStepFn (fun t => pixels.count t) (pixels.length : Rat)
      (((List.range 256).map (fun t => ((t * pixels.count t : Nat) : Rat))).sum))
    ⟨0, 0, 0, 127, false⟩).thr

/-- `pipeline._to_bilevel_pbm` (lines 39-74): threshold at the Otsu
value (`255 if p > thr else 0`; `true` = white), then the polarity
heuristic: if there are no black pixels at all, invert; else if more
than 95% of the pixels are black, invert; else keep.  (The
`total == 0` re-threshold fallback of lines 57-63 is unreachable for a
decoded image and coincides with this definition on the empty list.) -/
def toBilevelPbm (pixels : List Nat) : List Bool :=
  if (pixels.map (fun p => decide (p > otsuThreshold pixels))).count false = 0 then
    (pixels.map (fun p => decide (p > otsuThreshold pixels))).map not
  else if (95 / 100 : Rat) <
      ((pixels.map (fun p => decide (p > otsuThreshold pixels))).count false : Rat)
        / ((pixels.map (fun p => decide (p > otsuThreshold pixels))).length : Rat) then
    (pixels.map (fun p => decide (p > otsuThreshold pixels))).map not
  else (pixels.map (fun p => decide (p > otsuThreshold pixels)))

theorem count_bool_split : ∀ l : List Bool, l.count false + l.count true = l.length := by
  intro l
  induction l with
  | nil => rfl
  | cons b t ih =>
    cases b <;> simp [List.count_cons] <;> omega

theorem count_false_map_not (l : List Bool) : (l.map not).count false = l.count true := by
  induction l with
  | nil => rfl
  | cons b t ih =>
    cases b <;> simp [List.count_cons, ih]

/-- C7 (amended): for every grayscale image, either the Otsu-binarized
image before the polarity heuristic is single-colour (all white or all
black — in which case the heuristic output can be entirely black or
entirely white, see the counterexample), or the bilevel image handed to
the tracer has a black-pixel count that is strictly positive and at
most 95% of all pixels. -/
theorem toBilevelPbm_ratio (pixels : List Nat) :
    (pixels.map (fun p => decide (p > otsuThreshold pixels))).count false = 0
    ∨ (pixels.map (fun p => decide (p > otsuThreshold pixels))).count true = 0
    ∨ (0 < (toBilevelPbm pixels).count false
        ∧ ((toBilevelPbm pixels).count false : Rat)
            ≤ 95 / 100 * ((toBilevelPbm pixels).length : Rat)) := by
  by_cases hb0 : (pixels.map (fun p => decide (p > otsuThreshold pixels))).count false = 0
  · exact Or.inl hb0
  by_cases hw0 : (pixels.map (fun p => decide (p > otsuThreshold pixels))).count true = 0
  · exact Or.inr (Or.inl hw0)
  refine Or.inr (Or.inr ?_)
  have hsplit := count_bool_split (pixels.map (fun p => decide (p > otsuThreshold pixels)))
  have hlen0 : 0 < (pixels.map (fun p => decide (p > otsuThreshold pixels))).length := by
    omega
  have hlenQ : (0 : Rat) < ((pixels.map (fun p => decide (p > otsuThreshold pixels))).length : Rat) := by
    exact_mod_cast hlen0
  by_cases hf : (95 / 100 : Rat) <
      ((pixels.map (fun p => decide (p > otsuThreshold pixels))).count false : Rat)
        / ((pixels.map (fun p => decide (p > otsuThreshold pixels))).length : Rat)
  · have hout : toBilevelPbm pixels
        = (pixels.map (fun p => decide (p > otsuThreshold pixels))).map not := by
      unfold toBilevelPbm
      rw [if_neg hb0, if_pos hf]
    rw [hout, count_false_map_not, List.length_map]
    constructor
    · omega
    · have hblack : (95 / 100 : Rat)
          * ((pixels.map (fun p => decide (p > otsuThreshold pixels))).length : Rat)
          < ((pixels.map (fun p => decide (p > otsuThreshold pixels))).count false : Rat) :=
        (lt_div_iff₀ hlenQ).mp hf
      have hcast : ((pixels.map (fun p => decide (p > otsuThreshold pixels))).count true : Rat)
          + ((pixels.map (fun p => decide (p > otsuThreshold pixels))).count false : Rat)
          = ((pixels.map (fun p => decide (p > otsuThreshold pixels))).length : Rat) := by
        exact_mod_cast by omega
      linarith
  · have hout : toBilevelPbm pixels
        = pixels.map (fun p => decide (p > otsuThreshold pixels)) := by
      unfold toBilevelPbm
      rw [if_neg hb0, if_neg hf]
    rw [hout]
    constructor
    · omega
    · have hle : ((pixels.map (fun p => decide (p > otsuThreshold pixels))).count false : Rat)
          / ((pixels.map (fun p => decide (p > otsuThreshold pixels))).length : Rat)
          ≤ 95 / 100 := le_of_not_lt hf
      have := (div_le_iff₀ hlenQ).mp hle
      linarith

theorem otsuStepFn_count_zero (hist : Nat → Nat) (total sumT : Rat)
    (wB sumB vM : Rat) (thr : Nat) (hw : wB = 0) (t : Nat) (h0 : hist t = 0) :
    otsuStepFn hist total sumT ⟨wB, sumB, vM, thr, false⟩ t
      = ⟨wB, sumB, vM, thr, false⟩ := by
  subst hw
  unfold otsuStepFn
  rw [h0]
  norm_num

theorem otsu_foldl_count_zero (hist : Nat → Nat) (total sumT : Rat) :
    ∀ (l : List Nat) (sumB vM : Rat) (thr : Nat),
      (∀ t ∈ l, hist t = 0) →
      l.foldl (otsuStepFn hist total sumT) ⟨0, sumB, vM, thr, false⟩
        = ⟨0, sumB, vM, thr, false⟩ := by
  intro l
  induction l with
  | nil => intro sumB vM thr _; rfl
  | cons a tl ih =>
    intro sumB vM thr hz
    rw [List.foldl_cons,
        otsuStepFn_count_zero hist total sumT 0 sumB vM thr rfl a (hz a (by simp))]
    exact ih sumB vM thr (fun t ht => hz t (by simp [ht]))

theorem otsuThreshold_singleton : otsuThreshold [255] = 127 := by
  have hz : ∀ t ∈ List.range 255, List.count t [255] = 0 := by
    intro t ht
    have hlt : t < 255 := List.mem_range.mp ht
    have hne : ¬ ((255 : Nat) = t) := by omega
    simp [List.count_cons, List.count_nil, hne]
  unfold otsuThreshold
  rw [show (List.range 256) = List.range 255 ++ [255] from by
        rw [show (256 : Nat) = 255 + 1 from rfl, List.range_succ],
      List.foldl_append,
      otsu_foldl_count_zero _ _ _ (List.range 255) 0 0 127 hz,
      List.foldl_cons, List.foldl_nil]
  unfold otsuStepFn
  norm_num [List.count_cons]

theorem toBilevelPbm_singleton : toBilevelPbm [255] = [false] := by
  have hbw : ([255] : List Nat).map (fun p => decide (p > otsuThreshold [255])) = [true] := by
    simp only [otsuThreshold_singleton]
    rfl
  unfold toBilevelPbm
  simp only [hbw]
  norm_num

/-- C7 counterexample: the all-white image (a single pixel of value
255).  Otsu thresholding leaves the threshold at its initial 127, the
thresholded image is all white (zero black pixels), so the polarity
heuristic inverts it to all black — the final bilevel image is 100%
black, outside the claimed band (0, 95%]. -/
theorem toBilevelPbm_counterexample :
    toBilevelPbm [255] = [false]
    ∧ (toBilevelPbm [255]).count false = 1
    ∧ (toBilevelPbm [255]).length = 1
    ∧ ¬ (((toBilevelPbm [255]).count false : Rat)
          ≤ 95 / 100 * ((toBilevelPbm [255]).length : Rat)) := by
  have h := toBilevelPbm_singleton
  refine ⟨h, by rw [h]; rfl, by rw [h]; rfl, ?_⟩
  rw [h]
  norm_num [List.count_cons]

/-- The per-colour-key data of `contours.find_filled_contours` (lines
25-46) that is fixed for a fixed input image and independent of
`min_area_px`: the raw mask sum (`mask.sum()`, 255 per masked pixel,
computed *before* the morphological close) and the list of OpenCV
contour areas found on the closed mask (empty when `hier is None`).
The external OpenCV calls (`morphologyEx`, `findContours`,
`contourArea`) depend only on the image, so their results are
parameters of the embedding. -/
structure KeyRegion where
  maskSum : Nat
  areas : List Rat

/-- The contours one colour key contributes to the output of
`find_filled_contours`: zero if the key is skipped
(`mask.sum() < min_area_px`, line 27), else the number of its contours
with `area >= min_area_px` (the `area < min_area_px` skip, line 38;
`approxPolyDP` never drops a contour, it only simplifies it). -/
def regionContourCount (r : KeyRegion) (minArea : Nat) : Nat :=
  if r.maskSum < minArea then 0
  else (r.areas.filter (fun a => decide ((minArea : Rat) ≤ a))).length

/-- Number of polygons returned by `find_filled_contours` for a fixed
image (given as its per-key data) at a given `min_area_px`. -/
def findFilledContoursCount (regions : List KeyRegion) (minArea : Nat) : Nat :=
  (regions.map (fun r => regionContourCount r minArea)).sum

theorem length_filter_mono {α : Type} (l : List α) (p q : α → Bool)
    (h : ∀ a, q a = true → p a = true) :
    (l.filter q).length ≤ (l.filter p).length := by
  induction l with
  | nil => simp
  | cons a t ih =>
    by_cases hq : q a = true
    · rw [List.filter_cons_of_pos hq, List.filter_cons_of_pos (h a hq)]
      simpa using ih
    · rw [List.filter_cons_of_neg (by simpa using hq)]
      rcases Bool.eq_false_or_eq_true (p a) with hp | hp
      · rw [List.filter_cons_of_pos hp]
        exact ih.trans (by simp)
      · rw [List.filter_cons_of_neg (by simp [hp])]
        exact ih


theorem regionContourCount_antitone (r : KeyRegion) (m₁ m₂ : Nat) (h : m₁ ≤ m₂) :
    regionContourCount r m₂ ≤ regionContourCount r m₁ := by
  unfold regionContourCount
  by_cases h2 : r.maskSum < m₂
  · rw [if_pos h2]
    omega
  · rw [if_neg h2, if_neg (by omega)]
    refine length_filter_mono r.areas _ _ ?_
    intro a ha
    have h1 : (m₂ : Rat) ≤ a := of_decide_eq_true ha
    have hc : (m₁ : Rat) ≤ (m₂ : Rat) := by exact_mod_cast h
    exact decide_eq_true (hc.trans h1)

/-- C5: for a fixed input image, the number of polygons returned by
`find_filled_contours` is antitone in the minimum-area threshold:
raising `min_area_px` can only remove colour keys (the mask-sum skip)
and remove contours (the per-contour area skip), never add any. -/
theorem findFilledContoursCount_antitone (regions : List KeyRegion) (m₁ m₂ : Nat)
    (h : m₁ ≤ m₂) :
    findFilledContoursCount regions m₂ ≤ findFilledContoursCount regions m₁ := by
  unfold findFilledContoursCount
  induction regions with
  | nil => simp
  | cons r t ih =>
    rw [List.map_cons, List.map_cons, List.sum_cons, List.sum_cons]
    exact Nat.add_le_add (regionContourCount_antitone r m₁ m₂ h) ih

/-- Witness for `findFilledContoursCount_antitone`: two colour keys,
thresholds 2 and 5. -/
theorem findFilledContoursCount_antitone_witness :
    (2 : Nat) ≤ 5
    ∧ findFilledContoursCount [⟨3, [(1 : Rat), 6]⟩, ⟨10, [4, 9]⟩] 5
        ≤ findFilledContoursCount [⟨3, [(1 : Rat), 6]⟩, ⟨10, [4, 9]⟩] 2 :=
  ⟨by decide,
   findFilledContoursCount_antitone [⟨3, [(1 : Rat), 6]⟩, ⟨10, [4, 9]⟩] 2 5 (by decide)⟩

/-- The distinct colours of an image in first-occurrence order. -/
def distinctColors (img : List RGB) : List RGB :=
  img.foldl (fun acc c => if c ∈ acc then acc else acc ++ [c]) []

/-- Modelled from the spec: the palette selection inside PIL's
`Image.quantize(colors=k, method=MEDIANCUT, dither=NONE)` and
`convert("P", palette=ADAPTIVE, colors=k, dither=NONE)` — called by
`logo_safe._quantize_no_dither` (line 154) and
`logo_sign_mode._quantize_flat_palette` (lines 151-157) — is PIL
library code, absent from this repository.  Spec §4.4 describes the
re-snap as a "nearest-palette-color snap, no dithering" onto "the
exact K-color palette": for an image of at most K distinct colours,
median cut splits until every box holds one colour, so the palette is
exactly the image's distinct colours; for more colours this model
keeps the first K distinct colours (the idempotence claim only
concerns already-quantized images). -/
def adaptivePalette (img : List RGB) (k : Nat) : List RGB :=
  (distinctColors img).take k

/-- Nearest-palette-colour lookup of the no-dither snap: the first
palette entry of minimal squared RGB distance (later entries win only
on strict improvement). -/
def nearestColor (pal : List RGB) (c : RGB) : RGB :=
  match pal with
  | [] => c
  | p :: ps =>
    ps.foldl (fun best q => if colorDistSq q c < colorDistSq best c then q else best) p

/-- `_quantize_no_dither` / `_quantize_flat_palette` with the
spec-modelled palette: snap every pixel of the image to its nearest
palette colour. -/
def quantizeNoDither (img : List RGB) (k : Nat) : List RGB :=
  img.map (nearestColor (adaptivePalette img k))

theorem mem_distinct_fold (x : RGB) :
    ∀ (l acc : List RGB), (x ∈ acc ∨ x ∈ l) →
      x ∈ l.foldl (fun acc c => if c ∈ acc then acc else acc ++ [c]) acc := by
  intro l
  induction l with
  | nil =>
    intro acc h
    rcases h with h | h
    · simpa using h
    · simp at h
  | cons a t ih =>
    intro acc h
    rw [List.foldl_cons]
    apply ih
    by_cases ha : a ∈ acc
    · rw [if_pos ha]
      rcases h with h | h
      · exact Or.inl h
      · rcases List.mem_cons.mp h with h | h
        · exact Or.inl (h ▸ ha)
        · exact Or.inr h
    · rw [if_neg ha]
      rcases h with h | h
      · exact Or.inl (List.mem_append_left _ h)
      · rcases List.mem_cons.mp h with h | h
        · exact Or.inl (List.mem_append_right _ (by simp [h]))
        · exact Or.inr h

theorem mem_distinctColors (img : List RGB) (c : RGB) (hc : c ∈ img) :
    c ∈ distinctColors img :=
  mem_distinct_fold c img [] (Or.inr hc)

theorem fold_nearest (c : RGB) :
    ∀ (t : List RGB) (best : RGB),
      (best = c ∨ 0 < colorDistSq best c) →
      (∀ q ∈ t, q = c ∨ 0 < colorDistSq q c) →
      (best = c ∨ c ∈ t) →
      t.foldl (fun b q => if colorDistSq q c < colorDistSq b c then q else b) best = c := by
  intro t
  induction t with
  | nil =>
    intro best _ _ hin
    rcases hin with h | h
    · simpa using h
    · simp at h
  | cons q t' ih =>
    intro best hb ht hin
    rw [List.foldl_cons]
    by_cases hlt : colorDistSq q c < colorDistSq best c
    · rw [if_pos hlt]
      refine ih q (ht q (by simp)) (fun x hx => ht x (by simp [hx])) ?_
      rcases hb with hb | hb
      · exfalso
        rw [hb, colorDistSq_self] at hlt
        exact absurd hlt (not_lt.mpr (colorDistSq_nonneg q c))
      · rcases hin with h | h
        · exfalso
          rw [h, colorDistSq_self] at hlt
          exact absurd hlt (not_lt.mpr (colorDistSq_nonneg q c))
        · rcases List.mem_cons.mp h with h | h
          · exact Or.inl h.symm
          · exact Or.inr h
    · rw [if_neg hlt]
      refine ih best hb (fun x hx => ht x (by simp [hx])) ?_
      rcases hin with h | h
      · exact Or.inl h
      · rcases List.mem_cons.mp h with h | h
        · rcases hb with hb | hb
          · exact Or.inl hb
          · exfalso
            have hq0 : colorDistSq q c = 0 := by
              rw [← h]
              exact colorDistSq_self c
            rw [hq0] at hlt
            exact hlt hb
        · exact Or.inr h

theorem nearestColor_self (pal : List RGB) (c : RGB) (hc : c ∈ pal) :
    nearestColor pal c = c := by
  cases pal with
  | nil => simp at hc
  | cons p ps =>
    unfold nearestColor
    have hside : ∀ q : RGB, q = c ∨ 0 < colorDistSq q c := by
      intro q
      by_cases hq : q = c
      · exact Or.inl hq
      · exact Or.inr (colorDistSq_pos_of_ne q c hq)
    refine fold_nearest c ps p (hside p) (fun q _ => hside q) ?_
    rcases List.mem_cons.mp hc with h | h
    · exact Or.inl h.symm
    · exact Or.inr h

/-- C2: snap-to-palette is idempotent.  For every image already
quantized to at most `k` palette colours (at most `k` distinct pixel
values), re-quantizing to the same `k` with no dithering is the
identity: the adaptive palette of such an image is exactly its
distinct colours, and the nearest-palette snap fixes every pixel. -/
theorem quantizeNoDither_idempotent (img : List RGB) (k : Nat)
    (h : (distinctColors img).length ≤ k) :
    quantizeNoDither img k = img := by
  unfold quantizeNoDither adaptivePalette
  rw [List.take_of_length_le h]
  have hfix : ∀ a ∈ img, nearestColor (distinctColors img) a = a := fun a ha =>
    nearestColor_self _ _ (mem_distinctColors img a ha)
  calc img.map (nearestColor (distinctColors img))
      = img.map id := List.map_congr_left hfix
    _ = img := List.map_id img

/-- Witness for `quantizeNoDither_idempotent` on a 3-pixel, 2-colour
image with `k = 2`. -/
theorem quantizeNoDither_idempotent_witness :
    (distinctColors [⟨255, 255, 255⟩, ⟨255, 0, 0⟩, ⟨255, 255, 255⟩]).length ≤ 2
    ∧ quantizeNoDither [⟨255, 255, 255⟩, ⟨255, 0, 0⟩, ⟨255, 255, 255⟩] 2
        = [⟨255, 255, 255⟩, ⟨255, 0, 0⟩, ⟨255, 255, 255⟩] :=
  ⟨by decide,
   quantizeNoDither_idempotent [⟨255, 255, 255⟩, ⟨255, 0, 0⟩, ⟨255, 255, 255⟩] 2 (by decide)⟩

/-- `_composite_over_white` (`logo_safe.py` lines 68-74,
`logo_sign_mode.py` lines 42-53): PIL `alpha_composite` of the source
pixel over an opaque white background, in exact real-valued channel
semantics — each channel becomes `src*alpha + 255*(1-alpha)` with
`alpha = a/255` in `[0,1]`. -/
def compositeOverWhite (src : Rat × Rat × Rat) (alpha : Rat) : Rat × Rat × Rat :=
  (src.1 * alpha + 255 * (1 - alpha),
   src.2.1 * alpha + 255 * (1 - alpha),
   src.2.2 * alpha + 255 * (1 - alpha))

/-- The alpha handling of `preprocess.load_and_quantize` (lines
88-91): `alpha = arr[..., 3] / 255.0`, then
`lab_p = lab * np.clip(alpha, 0, 1)` — the Lab triple is *multiplied*
by alpha; no background term is added. -/
def labAlphaResolve (lab : Rat × Rat × Rat) (a : Rat) : Rat × Rat × Rat :=
  (lab.1 * min (max (a / 255) 0) 1,
   lab.2.1 * min (max (a / 255) 0) 1,
   lab.2.2 * min (max (a / 255) 0) 1)

/-- The claim's formula (spec §4.1): standard per-channel alpha
blending `out = src*alpha + bg*(1-alpha)`. -/
def specAlphaBlend (src bg : Rat × Rat × Rat) (alpha : Rat) : Rat × Rat × Rat :=
  (src.1 * alpha + bg.1 * (1 - alpha),
   src.2.1 * alpha + bg.2.1 * (1 - alpha),
   src.2.2 * alpha + bg.2.2 * (1 - alpha))

/-- C6 (amended): the PIL-based normalizers resolve alpha by the
standard blend over opaque *white*, exactly as the claim states; the
numpy path `load_and_quantize` instead multiplies the Lab values by
alpha, which is the standard blend over Lab `(0,0,0)` — i.e. over
*black*, not white (see the counterexample). -/
theorem alpha_resolution (src lab : Rat × Rat × Rat) (alpha a : Rat) :
    compositeOverWhite src alpha = specAlphaBlend src (255, 255, 255) alpha
    ∧ labAlphaResolve lab a = specAlphaBlend lab (0, 0, 0) (min (max (a / 255) 0) 1) := by
  constructor
  · rfl
  · unfold labAlphaResolve specAlphaBlend
    refine Prod.ext ?_ (Prod.ext ?_ ?_) <;> simp <;> ring

/-- C6 counterexample: a fully transparent (`alpha = 0`) pure-white
source pixel.  White is exactly `(100, 0, 0)` in Lab (`Y = 1`,
`cbrt 1 = 1`, `L = 116 - 16 = 100`, `a = b = 0`), so the claimed blend
over an opaque white background leaves the pixel at Lab white, but
`load_and_quantize` produces `lab * 0 = (0, 0, 0)` — Lab black. -/
theorem labAlphaResolve_transparent_counterexample :
    labAlphaResolve (100, 0, 0) 0 = (0, 0, 0)
    ∧ specAlphaBlend (100, 0, 0) (100, 0, 0) 0 = (100, 0, 0)
    ∧ labAlphaResolve (100, 0, 0) 0 ≠ specAlphaBlend (100, 0, 0) (100, 0, 0) 0 := by
  have h1 : labAlphaResolve (100, 0, 0) 0 = ((0 : Rat), (0 : Rat), (0 : Rat)) := by
    norm_num [labAlphaResolve]
  have h2 : specAlphaBlend (100, 0, 0) (100, 0, 0) 0 = ((100 : Rat), (0 : Rat), (0 : Rat)) := by
    norm_num [specAlphaBlend]
  refine ⟨h1, h2, ?_⟩
  rw [h1, h2]
  norm_num [Prod.ext_iff]

/-- `SmartVectorizer.vectorize` (lines 55-63): the dimensions of the
image handed to the tracer.  `original_size` is recorded *before*
upscaling; when the Real-ESRGAN upsampler is loaded and the smaller
side is below 800, `enhance(img, outscale=2)` doubles both dimensions
and all later stages (denoise, quantize, potrace trace) run on the
doubled image. -/
def tracedDims (w h : Nat) (upsamplerLoaded : Bool) : Nat × Nat :=
  if upsamplerLoaded && decide (min h w < 800) then (2 * w, 2 * h) else (w, h)

/-- `SmartVectorizer._build_svg` (lines 214-231): the emitted SVG
declares `viewBox="0 0 {width} {height}"` from the pre-upscale
`original_size`. -/
def buildSvgViewBox (w h : Nat) : Nat × Nat := (w, h)

/-- The coordinate transform `vectorize` applies to the tracer's `d`
path data before pasting it into `_build_svg`: none — the strings are
embedded verbatim (`_trace_mask_with_potrace` lines 193-196,
`_build_svg` lines 224-227), with no division by the upsample factor.
-/
def emitCoord (c : Rat) : Rat := c

/-- Claim C3's consistency property at an input of width `w`, height
`h`: either the declared viewBox is in traced (post-upsample) units,
or every coordinate that can legitimately appear in the traced image
(here along the x axis) is emitted back inside the declared viewBox
width. -/
def svgCoordPolicyConsistent (w h : Nat) (up : Bool) : Prop :=
  buildSvgViewBox w h = tracedDims w h up
  ∨ ∀ c : Rat, 0 ≤ c → c ≤ ((tracedDims w h up).1 : Rat) → emitCoord c ≤ (w : Rat)

/-- C3: `SmartVectorizer` violates the one-consistent-policy
requirement whenever the upsampler is active.  At a 300x300 input with
the upsampler loaded, the traced image is 600x600 while the SVG
declares `viewBox="0 0 300 300"` and path coordinates are emitted
undivided, so the legitimate traced coordinate 600 lands outside the
viewBox; with the upsampler inactive the same flow is consistent. -/
theorem smartVectorizer_viewBox_mismatch :
    ¬ svgCoordPolicyConsistent 300 300 true ∧ svgCoordPolicyConsistent 300 300 false := by
  constructor
  · intro h
    rcases h with h | h
    · have ht : tracedDims 300 300 true = (600, 600) := by decide
      rw [ht] at h
      simp [buildSvgViewBox] at h
    · have ht : tracedDims 300 300 true = (600, 600) := by decide
      have h600 := h 600 (by norm_num) (by rw [ht]; norm_num)
      rw [emitCoord] at h600
      norm_num at h600
  · left
    decide

/-- A parsed XML element: tag (possibly namespace-qualified),
attribute list, children.  `ET.fromstring` / `ET.tostring` are the
(well-tested) stdlib parser and serializer; the tree transformation of
`_remove_stroke_layer` is modelled on this type.  The parse-failure
branch of the source returns the input bytes unchanged. -/
inductive Xml where
  | node (tag : String) (attrs : List (String × String)) (children : List Xml)

def Xml.tag : Xml → String
  | .node t _ _ => t

def Xml.attrs : Xml → List (String × String)
  | .node _ a _ => a

/-- `_remove_stroke_layer._tag_name` (lines 112-113):
`tag.split(sep, 1)[-1] if sep in tag else tag` where `sep` is the
closing-brace namespace delimiter (character 125): everything after
the first delimiter, or the whole tag when there is none. -/
def tagLocalName (t : String) : String :=
  if t.toList.contains (Char.ofNat 125) then
    String.mk ((t.toList.dropWhile (fun c => c ≠ Char.ofNat 125)).drop 1)
  else t

/-- The removal test of line 119: local tag name `g` and attribute
`id` equal to `stroke-layer`. -/
def isStrokeLayerG (e : Xml) : Bool :=
  decide (tagLocalName e.tag = "g") && decide (e.attrs.lookup "id" = some "stroke-layer")

mutual

/-- Removal of all collected `(parent, child)` pairs (lines 126-127):
every element keeps its tag and attributes and loses exactly its
stroke-layer children, recursively (children of a removed group vanish
with it). -/
def stripStrokeLayers : Xml → Xml
  | .node t a cs => .node t a (stripChildren cs)

def stripChildren : List Xml → List Xml
  | [] => []
  | c :: cs =>
    if isStrokeLayerG c then stripChildren cs
    else stripStrokeLayers c :: stripChildren cs

end

mutual

/-- The `to_remove` scan of lines 117-121: `root.iter()` visits every
element of the tree and collects stroke-layer groups among each
element's *children* — i.e. any stroke-layer group in a strictly
nested position (the root itself is never collected). -/
def hasStrokeChild : Xml → Bool
  | .node _ _ cs => hasStrokeChildList cs

def hasStrokeChildList : List Xml → Bool
  | [] => false
  | c :: cs => isStrokeLayerG c || hasStrokeChild c || hasStrokeChildList cs

end

/-- `_remove_stroke_layer` (lines 93-133) on the parsed tree: when the
scan finds nothing the input is returned as-is (line 124); otherwise
the collected groups are removed and the tree re-serialized. -/
def removeStrokeLayer (root : Xml) : Xml :=
  if hasStrokeChild root then stripStrokeLayers root else root

mutual

/-- Claim-side frame relation for C9: `framePreserved e o` holds when
`o` carries the same tag and the same attributes as `e` and its
children are, in order, exactly the non-stroke-layer children of `e`,
each preserved recursively — so the only change anywhere in the
document is the removal of stroke-layer groups, and every other
element, attribute and the structure are left unchanged. -/
def framePreserved : Xml → Xml → Bool
  | .node t a cs, .node t2 a2 cs2 =>
    decide (t2 = t) && decide (a2 = a) && frameChildren cs cs2

def frameChildren : List Xml → List Xml → Bool
  | [], os => os.isEmpty
  | c :: cs, os =>
    if isStrokeLayerG c then frameChildren cs os
    else
      match os with
      | [] => false
      | o :: os2 => framePreserved c o && frameChildren cs os2

end

theorem stripStrokeLayers_tag (e : Xml) :
    (stripStrokeLayers e).tag = e.tag ∧ (stripStrokeLayers e).attrs = e.attrs := by
  cases e with
  | node t a cs => exact ⟨rfl, rfl⟩

theorem isStrokeLayerG_strip (e : Xml) :
    isStrokeLayerG (stripStrokeLayers e) = isStrokeLayerG e := by
  cases e with
  | node t a cs => rfl

theorem strip_no_stroke_aux :
    ∀ n : Nat,
      (∀ e : Xml, sizeOf e ≤ n → hasStrokeChild (stripStrokeLayers e) = false)
      ∧ (∀ l : List Xml, sizeOf l ≤ n → hasStrokeChildList (stripChildren l) = false) := by
  intro n
  induction n with
  | zero =>
    constructor
    · intro e he
      exfalso
      cases e with
      | node t a cs =>
        simp at he
    · intro l hl
      cases l with
      | nil => rfl
      | cons c cs =>
        exfalso
        simp at hl
  | succ n ih =>
    constructor
    · intro e he
      cases e with
      | node t a cs =>
        have hcs : sizeOf cs ≤ n := by
          simp at he
          omega
        rw [stripStrokeLayers]
        rw [hasStrokeChild]
        exact ih.2 cs hcs
    · intro l hl
      cases l with
      | nil => rfl
      | cons c cs =>
        have hc : sizeOf c ≤ n := by
          simp at hl
          omega
        have hcs : sizeOf cs ≤ n := by
          simp at hl
          omega
        rw [stripChildren]
        by_cases hcS : isStrokeLayerG c = true
        · rw [if_pos hcS]
          exact ih.2 cs hcs
        · rw [if_neg hcS]
          rw [hasStrokeChildList]
          rw [isStrokeLayerG_strip c, ih.1 c hc, ih.2 cs hcs]
          simp at hcS
          simp [hcS]

/-- C9 (amended): `_remove_stroke_layer` returns its input unchanged
when no stroke-layer group occurs in a strictly nested position, and
otherwise removes every *non-root* stroke-layer group and nothing
else: the frame relation `framePreserved` states that at every level
of the output the tag and the attributes are those of the input and
the children are, in order, exactly the input's non-stroke-layer
children, recursively preserved.  Afterwards no stroke-layer group
remains anywhere below the root.  (A root element that is itself a
stroke-layer group is never removed; see the counterexample.) -/
theorem frame_strip_aux :
    ∀ n : Nat,
      (∀ e : Xml, sizeOf e ≤ n → framePreserved e (stripStrokeLayers e) = true)
      ∧ (∀ l : List Xml, sizeOf l ≤ n → frameChildren l (stripChildren l) = true) := by
  intro n
  induction n with
  | zero =>
    constructor
    · intro e he
      exfalso
      cases e with
      | node t a cs => simp at he
    · intro l hl
      cases l with
      | nil => rfl
      | cons c cs =>
        exfalso
        simp at hl
  | succ n ih =>
    constructor
    · intro e he
      cases e with
      | node t a cs =>
        have hcs : sizeOf cs ≤ n := by
          simp at he
          omega
        rw [stripStrokeLayers, framePreserved, ih.2 cs hcs]
        simp
    · intro l hl
      cases l with
      | nil => rfl
      | cons c cs =>
        have hc : sizeOf c ≤ n := by
          simp at hl
          omega
        have hcs : sizeOf cs ≤ n := by
          simp at hl
          omega
        by_cases hcS : isStrokeLayerG c = true
        · have hstrip : stripChildren (c :: cs) = stripChildren cs := by
            rw [stripChildren, if_pos hcS]
          rw [hstrip]
          show (if isStrokeLayerG c = true then frameChildren cs (stripChildren cs)
                else match stripChildren cs with
                  | [] => false
                  | o :: os2 => framePreserved c o && frameChildren cs os2) = true
          rw [if_pos hcS]
          exact ih.2 cs hcs
        · have hstrip : stripChildren (c :: cs)
              = stripStrokeLayers c :: stripChildren cs := by
            rw [stripChildren, if_neg hcS]
          rw [hstrip]
          show (if isStrokeLayerG c = true
                then frameChildren cs (stripStrokeLayers c :: stripChildren cs)
                else match stripStrokeLayers c :: stripChildren cs with
                  | [] => false
                  | o :: os2 => framePreserved c o && frameChildren cs os2) = true
          rw [if_neg hcS]
          show (framePreserved c (stripStrokeLayers c)
              && frameChildren cs (stripChildren cs)) = true
          rw [ih.1 c hc, ih.2 cs hcs]
          rfl

theorem strip_id_aux :
    ∀ n : Nat,
      (∀ e : Xml, sizeOf e ≤ n → hasStrokeChild e = false → stripStrokeLayers e = e)
      ∧ (∀ l : List Xml, sizeOf l ≤ n → hasStrokeChildList l = false →
          stripChildren l = l) := by
  intro n
  induction n with
  | zero =>
    constructor
    · intro e he
      exfalso
      cases e with
      | node t a cs => simp at he
    · intro l hl
      cases l with
      | nil => intro _; rfl
      | cons c cs =>
        exfalso
        simp at hl
  | succ n ih =>
    constructor
    · intro e he hs
      cases e with
      | node t a cs =>
        have hcs : sizeOf cs ≤ n := by
          simp at he
          omega
        rw [hasStrokeChild] at hs
        rw [stripStrokeLayers, ih.2 cs hcs hs]
    · intro l hl hs
      cases l with
      | nil => rfl
      | cons c cs =>
        have hc : sizeOf c ≤ n := by
          simp at hl
          omega
        have hcs : sizeOf cs ≤ n := by
          simp at hl
          omega
        rw [hasStrokeChildList] at hs
        have hparts := hs
        simp only [Bool.or_eq_false_iff] at hparts
        rw [stripChildren, if_neg (by simp [hparts.1.1])]
        rw [ih.1 c hc hparts.1.2, ih.2 cs hcs hparts.2]

theorem removeStrokeLayer_spec (e : Xml) :
    (hasStrokeChild e = false → removeStrokeLayer e = e)
    ∧ (removeStrokeLayer e).tag = e.tag
    ∧ (removeStrokeLayer e).attrs = e.attrs
    ∧ framePreserved e (removeStrokeLayer e) = true
    ∧ hasStrokeChild (removeStrokeLayer e) = false := by
  unfold removeStrokeLayer
  by_cases h : hasStrokeChild e = true
  · rw [if_pos h]
    refine ⟨?_, (stripStrokeLayers_tag e).1, (stripStrokeLayers_tag e).2,
      (frame_strip_aux (sizeOf e)).1 e le_rfl,
      (strip_no_stroke_aux (sizeOf e)).1 e le_rfl⟩
    intro h0
    rw [h0] at h
    cases h
  · have hf : hasStrokeChild e = false := by
      cases hh : hasStrokeChild e
      · rfl
      · exact absurd hh h
    rw [if_neg h]
    refine ⟨fun _ => rfl, rfl, rfl, ?_, hf⟩
    have hid := (strip_id_aux (sizeOf e)).1 e le_rfl hf
    have hfr := (frame_strip_aux (sizeOf e)).1 e le_rfl
    rw [hid] at hfr
    exact hfr

/-- Witness for `removeStrokeLayer_spec`, exercising both branches at
concrete inputs: a plain `<svg>` root with one non-stroke child group
is returned unchanged (discharging the no-stroke hypothesis), and an
`<svg>` root holding a stroke-layer group next to a fills group is
actually stripped — the stroke-layer group disappears, the fills
group survives intact, and the frame relation holds. -/
theorem removeStrokeLayer_spec_witness :
    removeStrokeLayer (.node "svg" [] [.node "g" [("id", "fills")] []])
      = .node "svg" [] [.node "g" [("id", "fills")] []]
    ∧ removeStrokeLayer
        (.node "svg" [] [.node "g" [("id", "stroke-layer")] [],
                         .node "g" [("id", "fills")] []])
      = .node "svg" [] [.node "g" [("id", "fills")] []]
    ∧ framePreserved
        (.node "svg" [] [.node "g" [("id", "stroke-layer")] [],
                         .node "g" [("id", "fills")] []])
        (removeStrokeLayer
          (.node "svg" [] [.node "g" [("id", "stroke-layer")] [],
                           .node "g" [("id", "fills")] []])) = true
    ∧ hasStrokeChild
        (removeStrokeLayer
          (.node "svg" [] [.node "g" [("id", "stroke-layer")] [],
                           .node "g" [("id", "fills")] []])) = false := by
  have h0 := removeStrokeLayer_spec (.node "svg" [] [.node "g" [("id", "fills")] []])
  have h1 := removeStrokeLayer_spec
    (.node "svg" [] [.node "g" [("id", "stroke-layer")] [],
                     .node "g" [("id", "fills")] []])
  exact ⟨h0.1 (by decide), rfl, h1.2.2.2.1, h1.2.2.2.2⟩

/-- C9 counterexample: a document whose *root* element is itself
`<g id="stroke-layer">`.  A stroke-layer group exists, yet
`_remove_stroke_layer` returns the document unchanged (the scan only
collects children of parents, never the root), so not every
stroke-layer group is removed — and the "unchanged" branch of the
claim does not apply either, since a stroke-layer group does exist. -/
theorem removeStrokeLayer_root_counterexample :
    isStrokeLayerG (.node "g" [("id", "stroke-layer")] []) = true
    ∧ removeStrokeLayer (.node "g" [("id", "stroke-layer")] [])
        = .node "g" [("id", "stroke-layer")] []
    ∧ isStrokeLayerG
        (removeStrokeLayer (.node "g" [("id", "stroke-layer")] [])) = true := by
  refine ⟨by decide, rfl, by decide⟩
